import Mathlib

/-!
# Verification of the Product-List-Scraper pipeline

Shallow embedding of the scraper's core modules
(`product_scraper/parser.py`, `fetcher.py`, `validator.py`, `cli.py`)
together with theorems settling the specification claims.

Python strings are modelled as `List Char` (with `String` wrappers where
convenient); `None`-able values as `Option`; dictionaries as insertion-ordered
association lists.  The external HTML library (BeautifulSoup) is modelled
abstractly: a parsed document is a function from CSS selector to the list of
matching elements in document order, and an element carries its attribute
association list and its stripped text content.
-/

namespace ProductScraper

/-! ## Python string primitives -/

/-- Model of Python `s.split(sep, 1)` restricted to its first two pieces:
returns the parts of `s` before and after the *first* occurrence of `sep`,
or `none` when `sep` does not occur in `s` (Python `sep in s` is false). -/
def splitOnce (sep : List Char) : List Char → Option (List Char × List Char)
  | [] => if sep.isPrefixOf ([] : List Char) then some ([], []) else none
  | c :: rest =>
    if sep.isPrefixOf (c :: rest) then some ([], (c :: rest).drop sep.length)
    else (splitOnce sep rest).map (fun pq => (c :: pq.1, pq.2))

/-- Model of Python `s.rsplit(ch, 1)` for a single-character separator:
returns the parts of `s` before and after the *last* occurrence of `ch`,
or `none` when `ch` does not occur in `s`. -/
def rsplitChar (ch : Char) : List Char → Option (List Char × List Char)
  | [] => none
  | c :: rest =>
    match rsplitChar ch rest with
    | some pq => some (c :: pq.1, pq.2)
    | none => if c == ch then some ([], rest) else none

/-- Model of Python `sep in s` (substring containment). -/
def containsSeq (sep s : List Char) : Bool :=
  (splitOnce sep s).isSome

/-- Model of Python `s.strip()` on character lists: drop leading and trailing
whitespace. -/
def stripChars (l : List Char) : List Char :=
  ((l.dropWhile Char.isWhitespace).reverse.dropWhile Char.isWhitespace).reverse

/-- Model of Python `s.strip()`. -/
def pyStrip (s : String) : String := String.mk (stripChars s.toList)

/-- Model of Python `s.lower()` (ASCII case folding suffices here). -/
def pyLower (s : String) : String := String.mk (s.toList.map Char.toLower)

/-- Model of Python `s.startswith(pre)`. -/
def pyStartsWith (s pre : String) : Bool := pre.toList.isPrefixOf s.toList

/-- Model of Python `s.endswith(suf)`. -/
def pyEndsWith (s suf : String) : Bool := suf.toList.isSuffixOf s.toList

/-! ## Selector spec parser (`parser.py`, `_parse_selector_spec`) -/

/-- The literal `"::attr("` token of the selector mini-language. -/
def attrOpenTok : List Char := "::attr(".toList

/-- The literal `"::text"` token of the selector mini-language. -/
def textTok : List Char := "::text".toList

/-- Embedding of `_parse_selector_spec(spec)`: parse a selector spec into
`(css_selector, attr, text_mode)` following the source's precedence order:
`::attr(...)` form first, then last-`@` split, then `::text` suffix, then
the bare-selector default. -/
def parseSelectorSpec (spec : List Char) : List Char × Option (List Char) × Bool :=
  if containsSeq attrOpenTok spec && [')'].isSuffixOf spec then
    match splitOnce attrOpenTok spec with
    | some (cssSelector, attrPart) => (cssSelector, some attrPart.dropLast, false)
    | none => (spec, none, true)
  else if spec.contains '@' then
    match rsplitChar '@' spec with
    | some (cssSelector, attr) => (cssSelector, some attr, false)
    | none => (spec, none, true)
  else if textTok.isSuffixOf spec then
    (spec.take (spec.length - textTok.length), none, true)
  else
    (spec, none, true)

/-- `String`-level wrapper of `parseSelectorSpec`. -/
def parseSelectorSpecS (spec : String) : String × Option String × Bool :=
  let r := parseSelectorSpec spec.toList
  (String.mk r.1, r.2.1.map String.mk, r.2.2)

example : parseSelectorSpecS "a.title@title" = ("a.title", some "title", false) := by rfl
example : parseSelectorSpecS "a.title::attr(title)" = ("a.title", some "title", false) := by rfl
example : parseSelectorSpecS "a.title::text" = ("a.title", none, true) := by rfl
example : parseSelectorSpecS "a.title" = ("a.title", none, true) := by rfl
example : parseSelectorSpecS "div[data-x]@href" = ("div[data-x]", some "href", false) := by rfl
example : parseSelectorSpecS "a@b@c" = ("a@b", some "c", false) := by rfl

/-! ### Properties of the string primitives -/

theorem splitOnce_sound {sep s p q : List Char}
    (h : splitOnce sep s = some (p, q)) : s = p ++ sep ++ q := by
  induction s generalizing p q with
  | nil =>
    unfold splitOnce at h
    split at h
    · rename_i hpre
      rw [List.isPrefixOf_iff_prefix] at hpre
      have : sep = [] := List.prefix_nil.mp hpre
      simp_all
    · simp at h
  | cons c rest ih =>
    unfold splitOnce at h
    split at h
    · rename_i hpre
      rw [List.isPrefixOf_iff_prefix] at hpre
      obtain ⟨t, ht⟩ := hpre
      simp only [Option.some.injEq, Prod.mk.injEq] at h
      obtain ⟨hp, hq⟩ := h
      subst hp
      subst hq
      simp only [List.nil_append]
      rw [← ht]
      simp [List.drop_left]
    · rename_i hpre
      cases hrec : splitOnce sep rest with
      | none => rw [hrec] at h; simp at h
      | some pq =>
        rw [hrec] at h
        simp only [Option.map_some', Option.some.injEq] at h
        obtain ⟨p₀, q₀⟩ := pq
        have := ih hrec
        simp only [Prod.mk.injEq] at h
        obtain ⟨hp, hq⟩ := h
        subst hp hq
        simp [this]

theorem splitOnce_minimal {sep s p q : List Char}
    (h : splitOnce sep s = some (p, q)) :
    ∀ p₁ q₁, s = p₁ ++ sep ++ q₁ → p.length ≤ p₁.length := by
  induction s generalizing p q with
  | nil =>
    intro p₁ q₁ hdec
    unfold splitOnce at h
    split at h
    · simp only [Option.some.injEq, Prod.mk.injEq] at h
      obtain ⟨hp, _⟩ := h
      subst hp
      simp
    · simp at h
  | cons c rest ih =>
    intro p₁ q₁ hdec
    unfold splitOnce at h
    split at h
    · simp only [Option.some.injEq, Prod.mk.injEq] at h
      obtain ⟨hp, _⟩ := h
      subst hp
      simp
    · rename_i hpre
      cases hrec : splitOnce sep rest with
      | none => rw [hrec] at h; simp at h
      | some pq =>
        rw [hrec] at h
        obtain ⟨p₀, q₀⟩ := pq
        simp only [Option.map_some', Option.some.injEq, Prod.mk.injEq] at h
        obtain ⟨hp, _⟩ := h
        subst hp
        cases p₁ with
        | nil =>
          exfalso
          apply hpre
          rw [List.isPrefixOf_iff_prefix]
          simp only [List.nil_append] at hdec
          exact ⟨q₁, hdec.symm⟩
        | cons c₁ p₁t =>
          simp only [List.cons_append, List.cons.injEq] at hdec
          obtain ⟨_, hrest⟩ := hdec
          have := ih hrec p₁t q₁ hrest
          simpa using this

theorem splitOnce_none {sep s : List Char}
    (h : splitOnce sep s = none) : ∀ p q, s ≠ p ++ sep ++ q := by
  induction s with
  | nil =>
    intro p q hdec
    unfold splitOnce at h
    split at h
    · simp at h
    · rename_i hpre
      apply hpre
      rw [List.isPrefixOf_iff_prefix]
      obtain ⟨-, hsep, -⟩ : p = [] ∧ sep = [] ∧ q = [] := by
        simpa [List.append_eq_nil] using hdec.symm
      simp [hsep]
  | cons c rest ih =>
    intro p q hdec
    unfold splitOnce at h
    split at h
    · simp at h
    · rename_i hpre
      cases hrec : splitOnce sep rest with
      | some pq => rw [hrec] at h; simp at h
      | none =>
        cases p with
        | nil =>
          apply hpre
          rw [List.isPrefixOf_iff_prefix]
          simp only [List.nil_append] at hdec
          exact ⟨q, hdec.symm⟩
        | cons c₁ pt =>
          simp only [List.cons_append, List.cons.injEq] at hdec
          exact ih hrec pt q hdec.2

theorem containsSeq_infix_iff {sep s : List Char} :
    containsSeq sep s = true ↔ sep <:+: s := by
  constructor
  · intro h
    unfold containsSeq at h
    cases hrec : splitOnce sep s with
    | none => rw [hrec] at h; simp at h
    | some pq =>
      obtain ⟨p, q⟩ := pq
      exact ⟨p, q, (splitOnce_sound hrec).symm⟩
  · rintro ⟨p, q, hpq⟩
    unfold containsSeq
    cases hrec : splitOnce sep s with
    | none => exact absurd hpq.symm (splitOnce_none hrec p q)
    | some pq => simp

theorem rsplitChar_none {ch : Char} {s : List Char}
    (h : rsplitChar ch s = none) : ch ∉ s := by
  induction s with
  | nil => simp
  | cons c rest ih =>
    unfold rsplitChar at h
    cases hrec : rsplitChar ch rest with
    | some pq => rw [hrec] at h; simp at h
    | none =>
      rw [hrec] at h
      by_cases hc : c = ch
      · simp [hc] at h
      · simp only [List.mem_cons, not_or]
        exact ⟨fun heq => hc heq.symm, ih hrec⟩

theorem rsplitChar_sound {ch : Char} {s p q : List Char}
    (h : rsplitChar ch s = some (p, q)) : s = p ++ ch :: q ∧ ch ∉ q := by
  induction s generalizing p q with
  | nil => simp [rsplitChar] at h
  | cons c rest ih =>
    unfold rsplitChar at h
    cases hrec : rsplitChar ch rest with
    | some pq =>
      rw [hrec] at h
      obtain ⟨p₀, q₀⟩ := pq
      simp only [Option.some.injEq, Prod.mk.injEq] at h
      obtain ⟨hp, hq⟩ := h
      subst hp hq
      obtain ⟨hdec, hmem⟩ := ih hrec
      exact ⟨by simp [hdec], hmem⟩
    | none =>
      rw [hrec] at h
      by_cases hc : c = ch
      · rw [if_pos (beq_iff_eq.mpr hc)] at h
        simp only [Option.some.injEq, Prod.mk.injEq] at h
        obtain ⟨hp, hq⟩ := h
        subst hp
        subst hq
        subst hc
        exact ⟨by simp, rsplitChar_none hrec⟩
      · rw [if_neg (by simpa using hc)] at h
        simp at h

theorem rsplitChar_isSome {ch : Char} {s : List Char}
    (h : ch ∈ s) : (rsplitChar ch s).isSome := by
  cases hrec : rsplitChar ch s with
  | none => exact absurd h (rsplitChar_none hrec)
  | some pq => simp

/-! ### Claim C1 -/

/-- **C1.** For every selector spec string, `_parse_selector_spec` returns the
documented `(css_selector, attribute, text_mode)` triple following the
precedence order: a spec containing `::attr(` and ending with `)` yields the
substring before the first `::attr(` as css and the parenthesized content as
attribute with `text_mode = false`; otherwise a spec containing `@` is split
on the last `@` into css (left) and attribute (right) with
`text_mode = false`; otherwise a spec ending in `::text` yields the prefix as
css with no attribute and `text_mode = true`; otherwise the whole string is
the css selector with no attribute and `text_mode = true`.  The parse is a
pure total deterministic function by construction (`parseSelectorSpec` is a
total Lean function). -/
theorem selector_spec_parser_grammar (spec : List Char) :
    ((attrOpenTok <:+: spec) → ([')'] <:+ spec) →
      ∃ css content, spec = css ++ attrOpenTok ++ content ++ [')'] ∧
        (∀ p q, spec = p ++ attrOpenTok ++ q → css.length ≤ p.length) ∧
        parseSelectorSpec spec = (css, some content, false))
  ∧ (¬((attrOpenTok <:+: spec) ∧ [')'] <:+ spec) → '@' ∈ spec →
      ∃ css attr, spec = css ++ '@' :: attr ∧ '@' ∉ attr ∧
        parseSelectorSpec spec = (css, some attr, false))
  ∧ (¬((attrOpenTok <:+: spec) ∧ [')'] <:+ spec) → '@' ∉ spec → textTok <:+ spec →
      ∃ css, spec = css ++ textTok ∧ parseSelectorSpec spec = (css, none, true))
  ∧ (¬((attrOpenTok <:+: spec) ∧ [')'] <:+ spec) → '@' ∉ spec → ¬(textTok <:+ spec) →
      parseSelectorSpec spec = (spec, none, true)) := by
  refine ⟨?_, ?_, ?_, ?_⟩
  · intro hinf hsuf
    have hc : containsSeq attrOpenTok spec = true := containsSeq_infix_iff.mpr hinf
    have hs : [')'].isSuffixOf spec = true := List.isSuffixOf_iff_suffix.mpr hsuf
    cases hsplit : splitOnce attrOpenTok spec with
    | none => unfold containsSeq at hc; rw [hsplit] at hc; simp at hc
    | some pq =>
      obtain ⟨css, attrPart⟩ := pq
      have hdec := splitOnce_sound hsplit
      have hlast : spec.getLast? = some ')' := by
        obtain ⟨t, ht⟩ := hsuf
        rw [← ht]
        exact List.getLast?_concat t
      have hne : attrPart ≠ [] := by
        intro hnil
        subst hnil
        rw [hdec] at hlast
        rw [List.append_nil, List.getLast?_append_of_ne_nil css
          (show attrOpenTok ≠ [] by simp [attrOpenTok])] at hlast
        rw [show attrOpenTok.getLast? = some '(' from rfl] at hlast
        exact absurd hlast (by decide)
      have hlastAttr : attrPart.getLast? = some ')' := by
        rw [hdec, List.append_assoc,
          List.getLast?_append_of_ne_nil css
            (show attrOpenTok ++ attrPart ≠ [] by simp [attrOpenTok]),
          List.getLast?_append_of_ne_nil attrOpenTok hne] at hlast
        exact hlast
      have hAttrDec : attrPart.dropLast ++ [')'] = attrPart :=
        List.dropLast_append_getLast? ')' hlastAttr
      refine ⟨css, attrPart.dropLast, ?_, splitOnce_minimal hsplit, ?_⟩
      · rw [hdec, ← hAttrDec]
        simp
      · simp [parseSelectorSpec, hc, hs, hsplit, hinf, hsuf]
  · intro hnand hmem
    have hb : (containsSeq attrOpenTok spec && [')'].isSuffixOf spec) = false := by
      rw [← Bool.not_eq_true, Bool.and_eq_true]
      rintro ⟨h1, h2⟩
      exact hnand ⟨containsSeq_infix_iff.mp h1, List.isSuffixOf_iff_suffix.mp h2⟩
    have hmemb : spec.contains '@' = true := by simpa using hmem
    cases hr : rsplitChar '@' spec with
    | none => exact absurd hmem (rsplitChar_none hr)
    | some pq =>
      obtain ⟨css, attr⟩ := pq
      obtain ⟨hdec, hnotin⟩ := rsplitChar_sound hr
      exact ⟨css, attr, hdec, hnotin, by simp [parseSelectorSpec, hb, hmemb, hr, hmem]⟩
  · intro hnand hnmem hsuf
    have hb : (containsSeq attrOpenTok spec && [')'].isSuffixOf spec) = false := by
      rw [← Bool.not_eq_true, Bool.and_eq_true]
      rintro ⟨h1, h2⟩
      exact hnand ⟨containsSeq_infix_iff.mp h1, List.isSuffixOf_iff_suffix.mp h2⟩
    have hmemb : spec.contains '@' = false := by simpa using hnmem
    have hsufb : textTok.isSuffixOf spec = true := List.isSuffixOf_iff_suffix.mpr hsuf
    obtain ⟨css, hcss⟩ := hsuf
    refine ⟨css, hcss.symm, ?_⟩
    have htake : spec.take (spec.length - textTok.length) = css := by
      rw [← hcss, List.length_append]
      simp [List.take_left]
    have hsuf₂ : textTok <:+ spec := ⟨css, hcss⟩
    simp [parseSelectorSpec, hb, hmemb, hsufb, htake, hnmem, hsuf₂]
  · intro hnand hnmem hnsuf
    have hb : (containsSeq attrOpenTok spec && [')'].isSuffixOf spec) = false := by
      rw [← Bool.not_eq_true, Bool.and_eq_true]
      rintro ⟨h1, h2⟩
      exact hnand ⟨containsSeq_infix_iff.mp h1, List.isSuffixOf_iff_suffix.mp h2⟩
    have hmemb : spec.contains '@' = false := by simpa using hnmem
    have hsufb : textTok.isSuffixOf spec = false := by
      rw [← Bool.not_eq_true]
      intro h
      exact hnsuf (List.isSuffixOf_iff_suffix.mp h)
    simp [parseSelectorSpec, hb, hmemb, hsufb, hnmem, hnsuf]

/-- Witness for C1: the `@`-form case of `selector_spec_parser_grammar`
evaluated at the concrete spec `"a.title@title"`. -/
theorem selector_spec_parser_grammar_witness :
    ∃ css attr, "a.title@title".toList = css ++ '@' :: attr ∧ '@' ∉ attr ∧
      parseSelectorSpec "a.title@title".toList = (css, some attr, false) :=
  (selector_spec_parser_grammar "a.title@title".toList).2.1 (by decide) (by decide)

/-! ## HTML document model

BeautifulSoup is an external collaborator; it is modelled abstractly.  An
element carries its attribute association list (`element.get(name)` returns
the first binding of `name`) and its stripped text content
(`element.get_text(strip=True)`).  A parsed document is a function from CSS
selector to the list of matching elements in document order;
`select_one` returns the first match. -/

structure Element where
  attrs : List (String × String)
  text : String
deriving DecidableEq

/-- Model of BeautifulSoup `element.get(name)`. -/
def Element.getAttr (e : Element) (name : String) : Option String :=
  (e.attrs.find? (fun p => p.1 == name)).map (fun p => p.2)

/-- Model of a BeautifulSoup document: `select` lists the elements matching a
CSS selector in document order. -/
structure Doc where
  select : String → List Element

/-- Model of BeautifulSoup `soup.select_one(css)`: first match or `None`. -/
def Doc.selectOne (d : Doc) (css : String) : Option Element :=
  (d.select css).head?

/-! ## List page parser (`parser.py`, `ListPageParser.parse_list`) -/

/-- Embedding of `ListPageParser.parse_list`: collect, in document order, the
trimmed `href` of every element matched by the link selector, skipping
elements whose `href` is missing or trims to the empty string. -/
def parseList (linkSelector : String) (d : Doc) : List String :=
  (d.select linkSelector).filterMap (fun tag =>
    match tag.getAttr "href" with
    | none => none
    | some href =>
      let cleaned := pyStrip href
      if cleaned = "" then none else some cleaned)

/-! ## Detail page parser (`parser.py`, `DetailPageParser.parse_detail`) -/

/-- The four canonical detail fields (`core_fields` in the source). -/
def coreFields : List String := ["title", "price", "image_url", "description"]

/-- Helper for `dedupFirst`: drop every element already in `seen`, keep the
first occurrence of each new element. -/
def dedupFirstAux : List String → List String → List String
  | [], _ => []
  | x :: xs, seen =>
    if x ∈ seen then dedupFirstAux xs seen else x :: dedupFirstAux xs (x :: seen)

/-- Model of Python `list(dict.fromkeys(l))`: remove duplicates, first
occurrence wins. -/
def dedupFirst (l : List String) : List String := dedupFirstAux l []

/-- The spec's wording of duplicate removal: fold left, appending each field
the first time it is seen.  Used as the independent reference formulation in
claim C4; `dedupFirst_eq_firstSeenOrder` connects it to the source's
`dict.fromkeys`. -/
def firstSeenOrder (l : List String) : List String :=
  l.foldl (fun acc x => if x ∈ acc then acc else acc ++ [x]) []

/-- Embedding of `DetailPageParser.parse_detail`: one output pair per field in
canonical-then-extra order; a missing/falsy selector, an unmatched selector, a
missing attribute, or a value that trims to `""` all yield `none`.  (In the
source, the `text_mode` flag is never consulted here: both the `elif
text_mode` branch and the final `else` branch call `get_text(strip=True)`.) -/
def parseDetail (selectors : List (String × String)) (d : Doc) :
    List (String × Option String) :=
  let allFields := dedupFirst (coreFields ++ selectors.map (fun p => p.1))
  allFields.map (fun field =>
    (field,
      match List.lookup field selectors with
      | none => none
      | some selector =>
        if selector = "" then none
        else
          let parsed := parseSelectorSpecS selector
          match d.selectOne parsed.1 with
          | none => none
          | some element =>
            let value : Option String :=
              match parsed.2.1 with
              | some a => element.getAttr a
              | none =>
                if field = "image_url" then
                  match element.getAttr "src" with
                  | some s => if s = "" then some element.text else some s
                  | none => some element.text
                else
                  some element.text
            match value.map pyStrip with
            | none => none
            | some v => if v = "" then none else some v))

example :
    parseDetail [] ⟨fun _ => []⟩
      = [("title", none), ("price", none), ("image_url", none), ("description", none)] := by
  rfl

/-! ### Properties of duplicate removal and association-list lookup -/

theorem mem_dedupFirstAux {l seen : List String} {a : String} :
    a ∈ dedupFirstAux l seen ↔ a ∈ l ∧ a ∉ seen := by
  induction l generalizing seen with
  | nil => simp [dedupFirstAux]
  | cons x xs ih =>
    by_cases hx : x ∈ seen
    · simp only [dedupFirstAux, if_pos hx, ih, List.mem_cons]
      constructor
      · rintro ⟨h1, h2⟩
        exact ⟨Or.inr h1, h2⟩
      · rintro ⟨h1 | h1, h2⟩
        · subst h1; exact absurd hx h2
        · exact ⟨h1, h2⟩
    · simp only [dedupFirstAux, if_neg hx, List.mem_cons, ih]
      constructor
      · rintro (rfl | ⟨h1, h2⟩)
        · exact ⟨Or.inl rfl, hx⟩
        · simp only [List.mem_cons, not_or] at h2
          exact ⟨Or.inr h1, h2.2⟩
      · rintro ⟨rfl | h1, h2⟩
        · exact Or.inl rfl
        · by_cases hax : a = x
          · exact Or.inl hax
          · refine Or.inr ⟨h1, ?_⟩
            simp only [List.mem_cons, not_or]
            exact ⟨hax, h2⟩

theorem nodup_dedupFirstAux {l seen : List String} : (dedupFirstAux l seen).Nodup := by
  induction l generalizing seen with
  | nil => simp [dedupFirstAux]
  | cons x xs ih =>
    by_cases hx : x ∈ seen
    · simpa [dedupFirstAux, hx] using ih
    · simp only [dedupFirstAux, if_neg hx]
      refine List.nodup_cons.mpr ⟨?_, ih⟩
      rw [mem_dedupFirstAux]
      rintro ⟨-, h2⟩
      exact h2 (List.mem_cons_self x seen)

theorem mem_dedupFirst {l : List String} {a : String} :
    a ∈ dedupFirst l ↔ a ∈ l := by
  simp [dedupFirst, mem_dedupFirstAux]

theorem nodup_dedupFirst {l : List String} : (dedupFirst l).Nodup :=
  nodup_dedupFirstAux

theorem dedupFirstAux_congr {l s₁ s₂ : List String}
    (h : ∀ a, a ∈ s₁ ↔ a ∈ s₂) : dedupFirstAux l s₁ = dedupFirstAux l s₂ := by
  induction l generalizing s₁ s₂ with
  | nil => rfl
  | cons x xs ih =>
    by_cases hx : x ∈ s₁
    · rw [dedupFirstAux, dedupFirstAux, if_pos hx, if_pos ((h x).mp hx)]
      exact ih h
    · rw [dedupFirstAux, dedupFirstAux, if_neg hx, if_neg (fun hc => hx ((h x).mpr hc))]
      rw [@ih (x :: s₁) (x :: s₂) (fun a => by simp [List.mem_cons, h a])]

theorem foldl_firstSeen_eq_aux (l : List String) :
    ∀ acc : List String,
      l.foldl (fun acc x => if x ∈ acc then acc else acc ++ [x]) acc
        = acc ++ dedupFirstAux l acc := by
  induction l with
  | nil => intro acc; simp [dedupFirstAux]
  | cons x xs ih =>
    intro acc
    by_cases hx : x ∈ acc
    · rw [List.foldl_cons, if_pos hx, dedupFirstAux, if_pos hx]
      exact ih acc
    · rw [List.foldl_cons, if_neg hx, dedupFirstAux, if_neg hx, ih (acc ++ [x])]
      rw [@dedupFirstAux_congr xs (acc ++ [x]) (x :: acc) (fun a => by simp [or_comm])]
      simp

theorem dedupFirst_eq_firstSeenOrder (l : List String) :
    dedupFirst l = firstSeenOrder l := by
  have := foldl_firstSeen_eq_aux l []
  simpa [firstSeenOrder, dedupFirst] using this.symm

theorem lookup_map_apply {β : Type} (g : String → β) (l : List String) (k : String)
    (h : k ∈ l) : List.lookup k (l.map (fun x => (x, g x))) = some (g k) := by
  induction l with
  | nil => simp at h
  | cons x xs ih =>
    by_cases hk : k = x
    · subst hk
      simp [List.lookup]
    · have hx : (k == x) = false := by simpa using hk
      simp only [List.map_cons, List.lookup, hx]
      refine ih ?_
      rcases List.mem_cons.mp h with h1 | h1
      · exact absurd h1 hk
      · exact h1

theorem map_fst_map_pair {β : Type} (g : String → β) (l : List String) :
    (l.map (fun x => (x, g x))).map Prod.fst = l := by
  induction l with
  | nil => rfl
  | cons x xs ih => simp [ih]

/-- The cleanup step of `parse_detail` (`value = value.strip()`;
`data[field] = value or None`) never stores the empty string. -/
theorem cleaned_ne_empty (value : Option String) :
    (match value.map pyStrip with
     | none => none
     | some v => if v = "" then none else some v) ≠ some "" := by
  cases value with
  | none => simp
  | some s =>
    simp only [Option.map_some']
    by_cases h : pyStrip s = "" <;> simp [h]

/-! ### Claim C4 -/

/-- **C4.** For every HTML input and field-to-selector mapping,
`DetailPageParser.parse_detail` returns a record whose key sequence is
exactly the four canonical fields followed by the extra configured fields in
configuration order, duplicates removed with the first occurrence winning
(stated via the spec-side `firstSeenOrder` fold); a field with no configured
selector or no matching element maps to null; and a value that is empty after
trimming is stored as null, never as the empty string. -/
theorem detail_extractor_shape (selectors : List (String × String)) (d : Doc) :
    (parseDetail selectors d).map Prod.fst
      = firstSeenOrder (coreFields ++ selectors.map Prod.fst)
  ∧ (∀ f v, (f, v) ∈ parseDetail selectors d →
      (List.lookup f selectors = none → v = none)
      ∧ (∀ sel, List.lookup f selectors = some sel →
          d.selectOne (parseSelectorSpecS sel).1 = none → v = none)
      ∧ v ≠ some "") := by
  constructor
  · rw [← dedupFirst_eq_firstSeenOrder]
    simp only [parseDetail]
    rw [map_fst_map_pair]
  · intro f v hmem
    simp only [parseDetail, List.mem_map] at hmem
    obtain ⟨a, ha, heq⟩ := hmem
    rw [Prod.mk.injEq] at heq
    obtain ⟨rfl, rfl⟩ := heq
    refine ⟨?_, ?_, ?_⟩
    · intro hnone
      simp only [hnone]
    · intro sel hsel hsone
      simp only [hsel]
      by_cases hempty : sel = ""
      · simp [hempty]
      · simp only [if_neg hempty, hsone]
    · cases hl : List.lookup a selectors with
      | none => simp [hl]
      | some sel =>
        simp only [hl]
        by_cases hempty : sel = ""
        · simp [hempty]
        · simp only [if_neg hempty]
          cases hso : d.selectOne (parseSelectorSpecS sel).1 with
          | none => simp [hso]
          | some element =>
            simp only [hso]
            exact cleaned_ne_empty _

/-- A document in which no selector matches anything. -/
def noMatchDoc : Doc := ⟨fun _ => []⟩

/-- Witness for C4: the unmatched-selector clause of `detail_extractor_shape`
applied to the configured field `description` against a document with no
matching elements. -/
theorem detail_extractor_shape_witness :
    (("description", (none : Option String))
        ∈ parseDetail [("description", "div.d")] noMatchDoc)
    ∧ (none : Option String) ≠ some "" :=
  ⟨by decide,
   ((detail_extractor_shape [("description", "div.d")] noMatchDoc).2
      "description" none (by decide)).2.2⟩

/-! ### Claim C5 -/

/-- An `img` element whose `src` attribute is present but empty, with
non-empty text content. -/
def imgElemEmptySrc : Element := ⟨[("src", "")], "hello"⟩

/-- A document in which selector `img.i` matches exactly `imgElemEmptySrc`. -/
def imgDocEmptySrc : Doc := ⟨fun css => if css = "img.i" then [imgElemEmptySrc] else []⟩

/-- **C5, counterexample.** The claim states that `parse_detail` takes the
matched element's `src` attribute value, falling back to the text content
only when `src` is *absent*.  On an element whose `src` attribute is present
but empty, the code falls back to the text content too — Python's
`element.get("src") or element.get_text(strip=True)` treats the empty string
as falsy — so the stored value is the text `"hello"`, not the claimed `src`
value (which, being empty, would have been stored as null). -/
theorem image_url_src_claim_counterexample :
    imgElemEmptySrc.getAttr "src" = some ""
    ∧ List.lookup "image_url" (parseDetail [("image_url", "img.i")] imgDocEmptySrc)
        = some (some "hello") := by decide

/-- **C5 (amended).** For every HTML input, when the field named exactly
`image_url` is configured with a selector spec carrying no explicit
attribute, `parse_detail` takes the matched element's `src` attribute value
when `src` is present and non-empty, and falls back to the element's text
content when `src` is absent **or empty**; the chosen raw value is then
trimmed, an empty result being stored as null.  The claim's own example
(`src="https://x/a.jpg"` under selector `img.i` yields `"https://x/a.jpg"`)
is the witness below. -/
theorem image_url_src_preference (selectors : List (String × String)) (d : Doc)
    (sel : String) (e : Element)
    (hsel : List.lookup "image_url" selectors = some sel) (hne : sel ≠ "")
    (hattr : (parseSelectorSpecS sel).2.1 = none)
    (helem : d.selectOne (parseSelectorSpecS sel).1 = some e) :
    List.lookup "image_url" (parseDetail selectors d)
      = some (match e.getAttr "src" with
          | some s =>
            if s = "" then (if pyStrip e.text = "" then none else some (pyStrip e.text))
            else (if pyStrip s = "" then none else some (pyStrip s))
          | none => if pyStrip e.text = "" then none else some (pyStrip e.text)) := by
  have hmem : "image_url" ∈ dedupFirst (coreFields ++ selectors.map (fun p => p.1)) := by
    rw [mem_dedupFirst]
    simp [coreFields]
  simp only [parseDetail]
  rw [lookup_map_apply _ _ _ hmem]
  simp only [hsel, if_neg hne, helem, hattr, if_pos rfl]
  cases hsrc : e.getAttr "src" with
  | none =>
    simp only [hsrc, Option.map_some']
    by_cases ht : pyStrip e.text = "" <;> simp [ht]
  | some s =>
    by_cases hs : s = ""
    · subst hs
      simp only [hsrc, if_pos rfl, Option.map_some']
      by_cases ht : pyStrip e.text = "" <;> simp [ht]
    · simp only [hsrc, if_neg hs, Option.map_some']
      by_cases ht : pyStrip s = "" <;> simp [ht]

/-- The claim's example element: `<img class="i" src="https://x/a.jpg">no-text</img>`. -/
def imgElemExample : Element := ⟨[("class", "i"), ("src", "https://x/a.jpg")], "no-text"⟩

/-- A document in which selector `img.i` matches exactly `imgElemExample`. -/
def imgDocExample : Doc := ⟨fun css => if css = "img.i" then [imgElemExample] else []⟩

/-- Witness for C5: `image_url_src_preference` at the claim's concrete
example yields `"https://x/a.jpg"`. -/
theorem image_url_src_preference_witness :
    List.lookup "image_url" (parseDetail [("image_url", "img.i")] imgDocExample)
      = some (some "https://x/a.jpg") := by
  rw [image_url_src_preference [("image_url", "img.i")] imgDocExample "img.i" imgElemExample
    (by decide) (by decide) (by decide) (by decide)]
  decide

/-! ### Claim C6 -/

/-- Spec-side predicate: a matched element is kept iff its `href` attribute
exists and does not trim to the empty string. -/
def keepsHref (e : Element) : Bool :=
  match e.getAttr "href" with
  | none => false
  | some h => !(pyStrip h == "")

/-- Spec-side extraction: the trimmed `href` of a kept element. -/
def trimmedHref (e : Element) : String := pyStrip ((e.getAttr "href").getD "")

/-- First anchor of the claim's example (`href=" /p/1 "`). -/
def anchorA : Element := ⟨[("href", " /p/1 ")], ""⟩

/-- Second anchor of the claim's example (`href="   "`, all whitespace). -/
def anchorB : Element := ⟨[("href", "   ")], ""⟩

/-- Third anchor of the claim's example (`href="/p/3"`). -/
def anchorC : Element := ⟨[("href", "/p/3")], ""⟩

/-- A document whose selector `a` matches the three example anchors. -/
def threeAnchorDoc : Doc :=
  ⟨fun css => if css = "a" then [anchorA, anchorB, anchorC] else []⟩

/-- **C6.** `ListPageParser.parse_list` returns the trimmed `href` values of
the matched elements in document order, preserving duplicates, skipping
exactly those matched elements whose `href` attribute is missing or whose
trimmed value is empty — i.e. it is filter-then-map over the matched
elements; and on three anchors whose second `href` is all whitespace, the
output has length 2 and keeps the first and third links in order. -/
theorem list_link_extractor_order :
    (∀ (linkSelector : String) (d : Doc),
      parseList linkSelector d
        = ((d.select linkSelector).filter keepsHref).map trimmedHref)
    ∧ parseList "a" threeAnchorDoc = ["/p/1", "/p/3"] := by
  constructor
  · intro linkSelector d
    rw [parseList]
    generalize d.select linkSelector = l
    induction l with
    | nil => rfl
    | cons e rest ih =>
      cases hsrc : e.getAttr "href" with
      | none => simp [hsrc, keepsHref, ih]
      | some h =>
        by_cases hempty : pyStrip h = ""
        · simp [hsrc, keepsHref, hempty, ih]
        · simp [hsrc, keepsHref, trimmedHref, hempty, ih]
  · decide

/-! ## Fetcher (`fetcher.py`) -/

/-- What the network does on one attempt: raise a
`requests.exceptions.RequestException` (transport error) or deliver a
response with a status code and a body. -/
inductive FetchOutcome where
  | transportError
  | response (status : Nat) (body : String)
deriving DecidableEq

/-- How a call to `Fetcher.get` ends: return the body, or raise `FetchError`
(the three constructors record which `raise` site fired: transport error on
the last attempt, a status-code failure, or the post-loop raise that is
reachable only when `max_retries < 1`). -/
inductive FetchResult where
  | success (body : String)
  | errorTransport
  | errorStatus (status : Nat)
  | errorExhausted (lastStatus : Option Nat)
deriving DecidableEq

/-- Embedding of `Fetcher._should_retry_status`. -/
def shouldRetryStatus (status : Nat) : Bool :=
  status == 429 || (decide (500 ≤ status) && decide (status < 600))

/-- Embedding of the attempt loop of `Fetcher.get`: the body of
`for attempt in range(1, max_retries + 1)`, processed over the list of
remaining attempt numbers, plus the trailing `raise` (the `[]` case, which
Python only reaches when `max_retries < 1` since the last attempt of the
range always returns or raises).  `net` gives the outcome of each numbered
attempt; `lastStatus` mirrors the `last_status` local; the second component
of the result is the number of the attempt on which the call returned or
raised. -/
def getLoop (net : Nat → FetchOutcome) (maxRetries : Nat) :
    Option Nat → List Nat → FetchResult × Nat
  | lastStatus, [] => (.errorExhausted lastStatus, maxRetries)
  | lastStatus, attempt :: rest =>
    match net attempt with
    | .transportError =>
      if attempt == maxRetries then (.errorTransport, attempt)
      else getLoop net maxRetries lastStatus rest
    | .response status body =>
      if shouldRetryStatus status then
        if attempt == maxRetries then (.errorStatus status, attempt)
        else getLoop net maxRetries (some status) rest
      else if decide (400 ≤ status) && decide (status < 500) then
        (.errorStatus status, attempt)
      else
        (.success body, attempt)

/-- Embedding of `Fetcher.get`: run the attempt loop over
`range(1, max_retries + 1)` starting with no last status recorded. -/
def fetcherGet (net : Nat → FetchOutcome) (maxRetries : Nat) : FetchResult × Nat :=
  getLoop net maxRetries none (List.range' 1 maxRetries)

/-- The spec's notion of a transient attempt outcome: a transport error, or
a response with status 429 or 500–599. -/
def TransientOutcome : FetchOutcome → Prop
  | .transportError => True
  | .response status _ => status = 429 ∨ (500 ≤ status ∧ status < 600)

example : fetcherGet (fun _ => .response 502 "x") 3 = (.errorStatus 502, 3) := by decide
example : fetcherGet (fun _ => .response 404 "x") 5 = (.errorStatus 404, 1) := by decide
example : fetcherGet (fun _ => .response 200 "ok") 3 = (.success "ok", 1) := by decide

/-- `TransientOutcome` on a response agrees with the source's
`_should_retry_status`. -/
theorem transient_iff_shouldRetry (status : Nat) (body : String) :
    TransientOutcome (.response status body) ↔ shouldRetryStatus status = true := by
  simp [TransientOutcome, shouldRetryStatus]

/-- As long as the current attempt number `maxRetries` is still ahead in the
list of remaining attempts, the result of the loop does not depend on the
`last_status` local (it is only consulted by the post-loop `raise`, which is
unreachable once attempt `maxRetries` will be processed). -/
theorem getLoop_ls_irrel (net : Nat → FetchOutcome) (m : Nat) :
    ∀ (l : List Nat) (ls₁ ls₂ : Option Nat), m ∈ l →
      getLoop net m ls₁ l = getLoop net m ls₂ l := by
  intro l
  induction l with
  | nil => intro ls₁ ls₂ h; simp at h
  | cons a rest ih =>
    intro ls₁ ls₂ h
    by_cases ham : a = m
    · subst ham
      cases hna : net a with
      | transportError => simp [getLoop, hna]
      | response s b => by_cases hr : shouldRetryStatus s <;> simp [getLoop, hna, hr]
    · have hne : (a == m) = false := by simpa using ham
      have hm : m ∈ rest := by
        rcases List.mem_cons.mp h with h1 | h1
        · exact absurd h1.symm ham
        · exact h1
      cases hna : net a with
      | transportError =>
        simp only [getLoop, hna, hne, Bool.false_eq_true, if_false]
        exact ih ls₁ ls₂ hm
      | response s b =>
        by_cases hr : shouldRetryStatus s <;> simp [getLoop, hna, hne, hr]

/-- If every attempt before `k` is transient, the loop reaches attempt `k`
unchanged. -/
theorem getLoop_reach (net : Nat → FetchOutcome) (m k : Nat)
    (hk1 : 1 ≤ k) (hkm : k ≤ m)
    (htrans : ∀ i, 1 ≤ i → i < k → TransientOutcome (net i)) (ls : Option Nat) :
    getLoop net m ls (List.range' 1 m) = getLoop net m ls (List.range' k (m + 1 - k)) := by
  induction k with
  | zero => exact absurd hk1 (by omega)
  | succ k ih =>
    by_cases hk0 : k = 0
    · subst hk0
      simp
    · have hk1' : 1 ≤ k := by omega
      have hkm' : k ≤ m := by omega
      have ih' := ih hk1' hkm' (fun i h1 h2 => htrans i h1 (by omega))
      rw [ih']
      have hsplit : m + 1 - k = (m - k) + 1 := by omega
      rw [hsplit, List.range']
      have hkm2 : k < m := by omega
      have hne : (k == m) = false := by simp; omega
      have hmem : m ∈ List.range' (k + 1) (m - k) := by
        rw [List.mem_range'_1]
        omega
      have hrest : m - k = m + 1 - (k + 1) := by omega
      cases hna : net k with
      | transportError =>
        simp only [getLoop, hna, hne, Bool.false_eq_true, if_false]
        rw [hrest]
      | response s b =>
        have hr : shouldRetryStatus s = true :=
          (transient_iff_shouldRetry s b).mp (hna ▸ htrans k hk1' (by omega))
        simp only [getLoop, hna, hne, hr, Bool.false_eq_true, if_false, if_true]
        rw [getLoop_ls_irrel net m _ (some s) ls hmem, hrest]

/-- **C2.** For every URL (modelled by its per-attempt outcome function
`net`) and `max_retries ≥ 1`, `Fetcher.get` retries on transport errors and
on responses with status 429 or 500–599, raising `FetchError` on the last
allowed attempt when it also fails (with the error kind determined by that
last outcome); a response with status 400–499 other than 429 raises
`FetchError` immediately with no further attempts even if attempts remain;
any other received status returns the response body and stops.  The claim's
two concrete examples are the witness. -/
theorem fetcher_get_retry_policy (net : Nat → FetchOutcome) (maxRetries : Nat)
    (hmr : 1 ≤ maxRetries) :
    ((∀ i, 1 ≤ i → i ≤ maxRetries → TransientOutcome (net i)) →
      fetcherGet net maxRetries
        = (match net maxRetries with
           | .transportError => .errorTransport
           | .response s _ => .errorStatus s, maxRetries))
  ∧ (∀ k, 1 ≤ k → k ≤ maxRetries →
      (∀ i, 1 ≤ i → i < k → TransientOutcome (net i)) →
      ∀ s body, net k = .response s body →
        ((400 ≤ s ∧ s < 500 ∧ s ≠ 429 →
            fetcherGet net maxRetries = (.errorStatus s, k))
         ∧ (¬TransientOutcome (net k) → ¬(400 ≤ s ∧ s < 500) →
            fetcherGet net maxRetries = (.success body, k)))) := by
  constructor
  · intro htrans
    rw [fetcherGet, getLoop_reach net maxRetries maxRetries hmr le_rfl
      (fun i h1 h2 => htrans i h1 (by omega)) none]
    have h1 : maxRetries + 1 - maxRetries = 1 := by omega
    rw [h1, List.range']
    cases hna : net maxRetries with
    | transportError => simp [getLoop, hna]
    | response s b =>
      have hr : shouldRetryStatus s = true :=
        (transient_iff_shouldRetry s b).mp (hna ▸ htrans maxRetries hmr le_rfl)
      simp [getLoop, hna, hr]
  · intro k hk1 hkm htrans s body hnetk
    have hreach := getLoop_reach net maxRetries k hk1 hkm htrans none
    have hsplit : maxRetries + 1 - k = (maxRetries - k) + 1 := by omega
    constructor
    · rintro ⟨h4a, h4b, h429⟩
      have hr : shouldRetryStatus s = false := by
        simp only [shouldRetryStatus, Bool.or_eq_false_iff, Bool.and_eq_false_iff]
        constructor
        · simpa using h429
        · left
          simp only [decide_eq_false_iff_not]
          omega
      rw [fetcherGet, hreach, hsplit, List.range']
      have h4 : (decide (400 ≤ s) && decide (s < 500)) = true := by
        simp [h4a, h4b]
      simp [getLoop, hnetk, hr, h4]
    · intro hnt h4
      have hr : shouldRetryStatus s = false := by
        rw [hnetk] at hnt
        rw [← Bool.not_eq_true]
        exact fun hc => hnt ((transient_iff_shouldRetry s body).mpr hc)
      have h4b : (decide (400 ≤ s) && decide (s < 500)) = false := by
        rcases Decidable.not_and_iff_or_not.mp h4 with h | h <;> simp [h]
      rw [fetcherGet, hreach, hsplit, List.range']
      simp [getLoop, hnetk, hr, h4b]

/-- The claim's first example: statuses `[502, 503, 200]`. -/
def netRetryExample : Nat → FetchOutcome := fun attempt =>
  if attempt = 1 then .response 502 "e1"
  else if attempt = 2 then .response 503 "e2"
  else .response 200 "body-3"

/-- The claim's second example: every attempt returns 404. -/
def netNotFound : Nat → FetchOutcome := fun _ => .response 404 "nf"

/-- Witness for C2: statuses `[502, 503, 200]` with `max_retries = 3` return
the third body after exactly 3 attempts; `[404]` with `max_retries = 5`
fails after exactly 1 attempt. -/
theorem fetcher_get_retry_policy_witness :
    fetcherGet netRetryExample 3 = (.success "body-3", 3)
    ∧ fetcherGet netNotFound 5 = (.errorStatus 404, 1) := by
  constructor
  · exact ((fetcher_get_retry_policy netRetryExample 3 (by omega)).2 3 (by omega) (by omega)
      (by intro i h1 h2; interval_cases i <;> simp [netRetryExample, TransientOutcome])
      200 "body-3" (by decide)).2
      (by simp [netRetryExample, TransientOutcome]) (by omega)
  · exact ((fetcher_get_retry_policy netNotFound 5 (by omega)).2 1 (by omega) (by omega)
      (by intro i h1 h2; omega)
      404 "nf" (by decide)).1 (by omega)

/-! ### Claim C3 -/

/-- The backoff-related configuration of a `Fetcher` (`retry_backoff_seconds`,
`retry_backoff_multiplier`, `retry_jitter_seconds`), modelled over ℚ. -/
structure BackoffConfig where
  retryBackoffSeconds : ℚ
  retryBackoffMultiplier : ℚ
  retryJitterSeconds : ℚ

/-- Embedding of `Fetcher._sleep_backoff(attempt)`: `none` means no sleep at
all, `some t` means sleeping for `t` seconds.  `jitterSample` is the value
returned by `random.uniform(0, retry_jitter_seconds)` on this call. -/
def sleepBackoff (cfg : BackoffConfig) (jitterSample : ℚ) (attempt : Nat) : Option ℚ :=
  if cfg.retryBackoffSeconds ≤ 0 then none
  else
    let backoff := cfg.retryBackoffSeconds * cfg.retryBackoffMultiplier ^ (attempt - 1)
    some (if 0 < cfg.retryJitterSeconds then backoff + jitterSample else backoff)

/-- **C3.** For every failed attempt `attempt` (counting from 1) that is not
the last allowed one, the Fetcher sleeps for
`base * multiplier ^ (attempt - 1)` plus a uniform random value in
`[0, jitter_max]`, and only when `base > 0` (with `base ≤ 0` there is no
sleep at all); in particular the first retry (attempt 1) waits `base`
seconds (exactly `base` when `jitter_max = 0`). -/
theorem backoff_formula (cfg : BackoffConfig) (jitterSample : ℚ) (attempt : Nat)
    (hjs : 0 ≤ jitterSample) (hjm : jitterSample ≤ cfg.retryJitterSeconds)
    (hj0 : 0 ≤ cfg.retryJitterSeconds) :
    (0 < cfg.retryBackoffSeconds →
      ∃ j, 0 ≤ j ∧ j ≤ cfg.retryJitterSeconds ∧
        sleepBackoff cfg jitterSample attempt
          = some (cfg.retryBackoffSeconds
              * cfg.retryBackoffMultiplier ^ (attempt - 1) + j))
  ∧ (cfg.retryBackoffSeconds ≤ 0 → sleepBackoff cfg jitterSample attempt = none)
  ∧ (0 < cfg.retryBackoffSeconds → cfg.retryJitterSeconds = 0 →
      sleepBackoff cfg jitterSample 1 = some cfg.retryBackoffSeconds) := by
  refine ⟨?_, ?_, ?_⟩
  · intro hb
    by_cases hjpos : 0 < cfg.retryJitterSeconds
    · refine ⟨jitterSample, hjs, hjm, ?_⟩
      rw [sleepBackoff, if_neg (by linarith)]
      simp [hjpos]
    · refine ⟨0, le_refl 0, hj0, ?_⟩
      rw [sleepBackoff, if_neg (by linarith)]
      simp [hjpos]
  · intro hb
    rw [sleepBackoff, if_pos hb]
  · intro hb hj
    rw [sleepBackoff, if_neg (by linarith)]
    simp [hj]

/-- Witness for C3: with `base = 1`, `multiplier = 2`, `jitter_max = 0` and
jitter sample 0, the first retry sleeps exactly 1 second. -/
theorem backoff_formula_witness :
    sleepBackoff ⟨1, 2, 0⟩ 0 1 = some 1 :=
  (backoff_formula ⟨1, 2, 0⟩ 0 1 (by norm_num) (by norm_num) (by norm_num)).2.2
    (by norm_num) (by norm_num)

/-! ## Validator (`validator.py`) -/

/-- Kernel-computable model of Python string comparison: lexicographic by
code point on the character lists. -/
def charListLe : List Char → List Char → Bool
  | [], _ => true
  | _ :: _, [] => false
  | a :: as, b :: bs =>
    if a < b then true else if b < a then false else charListLe as bs

/-- Model of Python `a <= b` on strings. -/
def pyStrLe (a b : String) : Bool := charListLe a.toList b.toList

theorem charListLe_iff (a b : List Char) : charListLe a b = true ↔ ¬ b < a := by
  induction a generalizing b with
  | nil =>
    cases b with
    | nil =>
      simp only [charListLe, true_iff]
      intro h
      cases h
    | cons y ys =>
      simp only [charListLe, true_iff]
      intro h
      cases h
  | cons x xs ih =>
    cases b with
    | nil =>
      rw [show charListLe (x :: xs) [] = false from rfl]
      simp only [Bool.false_eq_true, false_iff, not_not]
      exact List.Lex.nil
    | cons y ys =>
      by_cases hxy : x < y
      · simp only [charListLe, if_pos hxy, true_iff]
        intro h
        cases h with
        | cons h3 => exact lt_irrefl _ hxy
        | rel h1 => exact (lt_asymm hxy) h1
      · by_cases hyx : y < x
        · simp only [charListLe, if_neg hxy, if_pos hyx, Bool.false_eq_true, false_iff,
            not_not]
          exact List.Lex.rel hyx
        · have hco : x = y := le_antisymm (not_lt.mp hyx) (not_lt.mp hxy)
          subst hco
          simp only [charListLe, if_neg hxy, if_neg hyx]
          rw [ih ys]
          constructor
          · intro h hcon
            cases hcon with
            | cons h3 => exact h h3
            | rel h1 => exact lt_irrefl _ h1
          · intro h hys
            exact h (List.Lex.cons hys)

theorem pyStrLe_iff (a b : String) : pyStrLe a b = true ↔ a ≤ b := by
  rw [pyStrLe, charListLe_iff, ← String.lt_iff_toList_lt]
  exact not_lt

/-- Model of Python `sorted(...)` on strings: a stable sort by `pyStrLe`. -/
def sortStrings (l : List String) : List String :=
  l.insertionSort (fun a b => pyStrLe a b = true)

instance : IsTotal String (fun a b => pyStrLe a b = true) :=
  ⟨fun a b => by
    rw [pyStrLe_iff, pyStrLe_iff]
    exact le_total a b⟩

instance : IsTrans String (fun a b => pyStrLe a b = true) :=
  ⟨fun a b c h1 h2 => by
    rw [pyStrLe_iff] at h1 h2 ⊢
    exact le_trans h1 h2⟩

theorem sortStrings_sorted (l : List String) :
    (sortStrings l).Sorted (· ≤ ·) := by
  have h := List.sorted_insertionSort (fun a b => pyStrLe a b = true) l
  exact h.imp (fun hab => (pyStrLe_iff _ _).mp hab)

theorem sortStrings_perm (l : List String) : (sortStrings l).Perm l :=
  List.perm_insertionSort _ l

/-- A scraped record: an insertion-ordered mapping from field name to value;
`none` models Python `None`. -/
abbrev Record := List (String × Option String)

/-- Summary produced by `validate_records`. -/
structure ValidationSummary where
  total_records : Nat
  fields : List String
  missing_counts : List (String × Nat)
deriving DecidableEq

/-- The missing test of `validate_records`: `record.get(field, None)` is
`None` (absent key or stored `None`) or the empty string. -/
def fieldMissingIn (field : String) (r : Record) : Bool :=
  match List.lookup field r with
  | none => true
  | some none => true
  | some (some v) => v == ""

/-- Embedding of `validate_records`: early return on empty input, otherwise
the record count, the sorted set of keys seen across all records, and one
missing count per field (the source's nested counting loop amounts to
`countP` per field). -/
def validateRecords (records : List Record) : ValidationSummary :=
  if records.length = 0 then ⟨0, [], []⟩
  else
    let allKeys := records.foldl (fun acc r => acc ++ r.map Prod.fst) []
    let fieldsSorted := sortStrings (dedupFirst allKeys)
    ⟨records.length, fieldsSorted,
     fieldsSorted.map (fun f => (f, records.countP (fun r => fieldMissingIn f r)))⟩

/-- Embedding of `format_quality_report`: `"\n".join` of the total line, the
comma-joined field list, the `missing_counts:` header, and one indented
`field: count` line per entry of `missing_counts` in order. -/
def formatQualityReport (summary : ValidationSummary) : String :=
  String.intercalate "\n"
    (["total_records: " ++ toString summary.total_records,
      "fields: " ++ String.intercalate ", " summary.fields,
      "missing_counts:"]
     ++ summary.missing_counts.map (fun p => "  " ++ p.1 ++ ": " ++ toString p.2))

theorem foldl_append_collect {α : Type} (g : α → List String) (l : List α) :
    ∀ acc : List String,
      l.foldl (fun acc r => acc ++ g r) acc = acc ++ (l.map g).flatten := by
  induction l with
  | nil => intro acc; simp
  | cons r rest ih =>
    intro acc
    rw [List.foldl_cons, ih (acc ++ g r)]
    simp

/-! ### Claim C8 -/

/-- **C8.** For every finite collection of records, `validate_records`
returns `total_records` equal to the number of records, `fields` equal to the
sorted (and duplicate-free) union of all keys seen across records, and
`missing_counts` mapping each such field to the number of records in which
the field's value is absent, null, or the empty string; an empty collection
yields `{total: 0, fields: [], missing_counts: {}}`. -/
theorem validator_summary (records : List Record) :
    (validateRecords records).total_records = records.length
  ∧ (validateRecords records).fields.Sorted (· ≤ ·)
  ∧ (validateRecords records).fields.Nodup
  ∧ (∀ f, f ∈ (validateRecords records).fields
      ↔ ∃ r, r ∈ records ∧ f ∈ r.map Prod.fst)
  ∧ (∀ f, f ∈ (validateRecords records).fields →
      List.lookup f (validateRecords records).missing_counts
        = some (records.countP (fun r => fieldMissingIn f r)))
  ∧ validateRecords [] = ⟨0, [], []⟩ := by
  by_cases hz : records.length = 0
  · have hnil : records = [] := List.length_eq_zero.mp hz
    subst hnil
    refine ⟨rfl, ?_, ?_, ?_, ?_, rfl⟩
    · simp [validateRecords]
    · simp [validateRecords]
    · intro f
      simp [validateRecords]
    · intro f hf
      simp [validateRecords] at hf
  · have hval : validateRecords records
        = ⟨records.length,
           sortStrings (dedupFirst
             (records.foldl (fun acc r => acc ++ r.map Prod.fst) [])),
           (sortStrings (dedupFirst
             (records.foldl (fun acc r => acc ++ r.map Prod.fst) []))).map
             (fun f => (f, records.countP (fun r => fieldMissingIn f r)))⟩ := by
      rw [validateRecords, if_neg hz]
    refine ⟨by rw [hval], by rw [hval]; exact sortStrings_sorted _, ?_, ?_, ?_, rfl⟩
    · rw [hval]
      exact ((sortStrings_perm _).nodup_iff).mpr nodup_dedupFirst
    · intro f
      rw [hval]
      simp only
      rw [(sortStrings_perm _).mem_iff, mem_dedupFirst,
        foldl_append_collect (fun r => r.map Prod.fst) records []]
      simp only [List.nil_append, List.mem_flatten]
      constructor
      · rintro ⟨keys, hkeys, hfk⟩
        obtain ⟨r, hr, rfl⟩ := List.mem_map.mp hkeys
        exact ⟨r, hr, hfk⟩
      · rintro ⟨r, hr, hfk⟩
        exact ⟨r.map Prod.fst, List.mem_map_of_mem _ hr, hfk⟩
    · intro f hf
      rw [hval] at hf ⊢
      simp only at hf ⊢
      exact lookup_map_apply _ _ _ hf

/-- The claim's example records:
`[{id:"p1",price:"100"},{id:"p2",price:""},{id:"p3"}]`. -/
def exampleRecords : List Record :=
  [[("id", some "p1"), ("price", some "100")],
   [("id", some "p2"), ("price", some "")],
   [("id", some "p3")]]

/-- Witness for C8: on the claim's example records, `missing_counts["price"]`
is 2, `fields` is `["id", "price"]`, and `total_records` is 3. -/
theorem validator_summary_witness :
    ("price" ∈ (validateRecords exampleRecords).fields)
    ∧ List.lookup "price" (validateRecords exampleRecords).missing_counts = some 2
    ∧ (validateRecords exampleRecords).fields = ["id", "price"]
    ∧ (validateRecords exampleRecords).total_records = 3 := by
  refine ⟨by decide, ?_, by decide, by decide⟩
  rw [(validator_summary exampleRecords).2.2.2.2.1 "price" (by decide)]
  decide

/-! ### Claim C9 -/

/-- **C9.** For every summary produced by `validate_records`,
`format_quality_report` renders a deterministic multi-line text: the
total-records line, the comma-joined sorted field list, the
`missing_counts:` header, then one indented `field: count` line per field in
the same sorted order as the field list (with the counts of C8). -/
theorem quality_report_format (records : List Record) :
    formatQualityReport (validateRecords records)
      = String.intercalate "\n"
          (["total_records: " ++ toString (validateRecords records).total_records,
            "fields: " ++ String.intercalate ", " (validateRecords records).fields,
            "missing_counts:"]
           ++ (validateRecords records).fields.map (fun f =>
                "  " ++ f ++ ": "
                  ++ toString (records.countP (fun r => fieldMissingIn f r)))) := by
  by_cases hz : records.length = 0
  · rw [formatQualityReport, validateRecords, if_pos hz]
    simp
  · rw [formatQualityReport, validateRecords, if_neg hz]
    simp [List.map_map, Function.comp_def]

/-! ## Pipeline (`cli.py`, `run_pipeline`)

The HTTP layer and the standard library's `urllib.parse.urljoin` are external
collaborators here: the pipeline is parametrised over a `fetch` function
(`Except` models `FetchError`), an HTML parser producing the document model,
and an abstract `urljoin`. -/

/-- Outcome of one pipeline run (`run_pipeline` return paths relevant to the
core): list-page fetch failure (`return 1`), empty record set (`return 1`),
or success with the final record sequence (`return 0`, records exported
unless dry-run). -/
inductive RunOutcome where
  | fatalListFetch (message : String)
  | noRecords
  | success (records : List Record)
deriving DecidableEq

/-- The process exit status of the run. -/
def exitCode : RunOutcome → Nat
  | .fatalListFetch _ => 1
  | .noRecords => 1
  | .success _ => 0

/-- The records handed to the exporter (`export_to_csv`); `none` when the run
ends before any export is attempted. -/
def exportedRecords : RunOutcome → Option (List Record)
  | .success records => some records
  | _ => none

/-- Model of Python dict assignment `record[k] = v`: update the binding in
place when the key exists, else append it. -/
def recordSet (r : Record) (k : String) (v : Option String) : Record :=
  if r.any (fun p => p.1 == k) then
    r.map (fun p => if p.1 == k then (k, v) else p)
  else r ++ [(k, v)]

/-- Embedding of the `*_url` normalization loop of `run_pipeline` (the same
loop body appears in both modes): every field whose name ends in `_url` and
whose value is a non-empty string is replaced by `urljoin(base, value)`;
all other fields are untouched. -/
def normalizeUrlFields (urljoin : String → String → String) (base : String)
    (r : Record) : Record :=
  r.map (fun p =>
    if pyEndsWith p.1 "_url" then
      match p.2 with
      | some v => if v ≠ "" then (p.1, some (urljoin base v)) else p
      | none => p
    else p)

/-- The detail-URL resolution of `run_pipeline`: a stripped link is used
unchanged iff it starts with `http` case-insensitively, else it is joined
onto the list URL. -/
def resolveLink (urljoin : String → String → String) (listUrl normalized : String) :
    String :=
  if pyStartsWith (pyLower normalized) "http" then normalized
  else urljoin listUrl normalized

/-- Embedding of the detail-page loop of `run_pipeline` (step 3 in the
source): strip each link, skip empty ones, resolve to an absolute URL, fetch
the detail page (a `FetchError` skips this one URL and continues), parse the
detail fields, inject `detail_url` and `source_list_url`, normalize `*_url`
fields against the resolved detail URL, and append to the accumulator. -/
def detailLoop (fetch : String → Except String String) (parseHtml : String → Doc)
    (urljoin : String → String → String) (selectors : List (String × String))
    (listUrl : String) : List String → List Record → List Record
  | [], records => records
  | url :: rest, records =>
    let normalized := pyStrip url
    if normalized = "" then
      detailLoop fetch parseHtml urljoin selectors listUrl rest records
    else
      let fullUrl := resolveLink urljoin listUrl normalized
      match fetch fullUrl with
      | .error _ => detailLoop fetch parseHtml urljoin selectors listUrl rest records
      | .ok detailHtml =>
        let record := parseDetail selectors (parseHtml detailHtml)
        let record := recordSet record "detail_url" (some fullUrl)
        let record := recordSet record "source_list_url" (some listUrl)
        detailLoop fetch parseHtml urljoin selectors listUrl rest
          (records ++ [normalizeUrlFields urljoin fullUrl record])

/-- The contribution of one link to the final record sequence: empty when the
link strips to nothing or its detail fetch fails, otherwise one record
normalized against the resolved detail URL. -/
def perUrl (fetch : String → Except String String) (parseHtml : String → Doc)
    (urljoin : String → String → String) (selectors : List (String × String))
    (listUrl url : String) : List Record :=
  let normalized := pyStrip url
  if normalized = "" then []
  else
    let fullUrl := resolveLink urljoin listUrl normalized
    match fetch fullUrl with
    | .error _ => []
    | .ok detailHtml =>
      [normalizeUrlFields urljoin fullUrl
        (recordSet
          (recordSet (parseDetail selectors (parseHtml detailHtml))
            "detail_url" (some fullUrl))
          "source_list_url" (some listUrl))]

/-- Embedding of `run_pipeline` in detail-follow mode: fetch the list page
(fatal on failure), parse the product links, apply the optional `limit`, run
the detail loop, and fail with "no records" when the final sequence is
empty. -/
def runPipelineDetail (fetch : String → Except String String)
    (parseHtml : String → Doc) (urljoin : String → String → String)
    (listUrl linkSelector : String) (selectors : List (String × String))
    (limit : Option Nat) : RunOutcome :=
  match fetch listUrl with
  | .error e => .fatalListFetch e
  | .ok listHtml =>
    let productUrls := parseList linkSelector (parseHtml listHtml)
    let productUrls := match limit with
      | none => productUrls
      | some n => productUrls.take n
    let records := detailLoop fetch parseHtml urljoin selectors listUrl productUrls []
    if records.isEmpty then .noRecords else .success records

/-- Embedding of the list-only-mode record post-processing of
`run_pipeline`: inject `source_list_url` into each item, then normalize
`*_url` fields against the list URL. -/
def listOnlyRecords (urljoin : String → String → String) (listUrl : String)
    (items : List Record) : List Record :=
  items.map (fun r =>
    normalizeUrlFields urljoin listUrl (recordSet r "source_list_url" (some listUrl)))

/-- The accumulator-passing detail loop computes the concatenation of the
per-URL contributions, in link order. -/
theorem detailLoop_eq_flatten (fetch : String → Except String String)
    (parseHtml : String → Doc) (urljoin : String → String → String)
    (selectors : List (String × String)) (listUrl : String) :
    ∀ (urls : List String) (records : List Record),
      detailLoop fetch parseHtml urljoin selectors listUrl urls records
        = records
          ++ (urls.map (perUrl fetch parseHtml urljoin selectors listUrl)).flatten := by
  intro urls
  induction urls with
  | nil => intro records; simp [detailLoop]
  | cons url rest ih =>
    intro records
    by_cases hn : pyStrip url = ""
    · simp only [detailLoop, perUrl, hn, if_pos rfl, List.map_cons, List.flatten_cons]
      rw [ih records]
      simp
    · cases hfetch : fetch (resolveLink urljoin listUrl (pyStrip url)) with
      | error e =>
        simp only [detailLoop, perUrl, if_neg hn, hfetch, List.map_cons, List.flatten_cons]
        rw [ih records]
        simp
      | ok detailHtml =>
        simp only [detailLoop, perUrl, if_neg hn, hfetch, List.map_cons, List.flatten_cons]
        rw [ih]
        simp

/-! ### Stripping is idempotent (links from `parse_list` are already
stripped, so the loop's `url.strip()` leaves them unchanged) -/

theorem dropWhile_idem (p : Char → Bool) : ∀ l : List Char,
    List.dropWhile p (List.dropWhile p l) = List.dropWhile p l := by
  intro l
  induction l with
  | nil => rfl
  | cons a l ih =>
    by_cases hp : p a
    · simp [List.dropWhile_cons, hp, ih]
    · simp [List.dropWhile_cons, hp]

theorem dropWhile_head_false {p : Char → Bool} : ∀ {l : List Char} {c : Char}
    {cs : List Char}, List.dropWhile p l = c :: cs → p c = false := by
  intro l
  induction l with
  | nil => intro c cs h; simp at h
  | cons a l ih =>
    intro c cs h
    by_cases hp : p a
    · rw [List.dropWhile_cons, if_pos hp] at h
      exact ih h
    · rw [List.dropWhile_cons, if_neg hp] at h
      injection h with h1 h2
      subst h1
      simpa using hp

theorem getLast?_dropWhile {p : Char → Bool} : ∀ {l : List Char},
    List.dropWhile p l ≠ [] → (List.dropWhile p l).getLast? = l.getLast? := by
  intro l
  induction l with
  | nil => intro h; simp at h
  | cons a l ih =>
    intro h
    by_cases hp : p a
    · rw [List.dropWhile_cons, if_pos hp] at h ⊢
      rw [ih h]
      have hl : l ≠ [] := by
        intro hc
        subst hc
        simp at h
      cases l with
      | nil => exact absurd rfl hl
      | cons b bs => exact (List.getLast?_cons_cons).symm
    · rw [List.dropWhile_cons, if_neg hp]

theorem stripChars_idem (l : List Char) : stripChars (stripChars l) = stripChars l := by
  rw [stripChars, stripChars]
  have h1 : ((((l.dropWhile Char.isWhitespace).reverse.dropWhile
      Char.isWhitespace).reverse).dropWhile Char.isWhitespace)
      = ((l.dropWhile Char.isWhitespace).reverse.dropWhile Char.isWhitespace).reverse := by
    cases hBr : ((l.dropWhile Char.isWhitespace).reverse.dropWhile
        Char.isWhitespace).reverse with
    | nil => simp
    | cons c cs =>
      have hhead : some c = ((l.dropWhile Char.isWhitespace).reverse.dropWhile
          Char.isWhitespace).reverse.head? := by rw [hBr]; rfl
      rw [List.head?_reverse] at hhead
      have hBne : (l.dropWhile Char.isWhitespace).reverse.dropWhile
          Char.isWhitespace ≠ [] := by
        intro hc
        rw [hc] at hBr
        simp at hBr
      rw [getLast?_dropWhile hBne, List.getLast?_reverse] at hhead
      cases hA : l.dropWhile Char.isWhitespace with
      | nil => rw [hA] at hhead; simp at hhead
      | cons x xs =>
        rw [hA] at hhead
        simp only [List.head?_cons, Option.some.injEq] at hhead
        subst hhead
        have hws : Char.isWhitespace c = false := dropWhile_head_false hA
        rw [List.dropWhile_cons, hws]
        simp
  rw [h1, List.reverse_reverse, dropWhile_idem]

theorem pyStrip_idem (s : String) : pyStrip (pyStrip s) = pyStrip s := by
  rw [pyStrip, pyStrip]
  congr 1
  rw [show (String.mk (stripChars s.toList)).toList = stripChars s.toList from rfl]
  exact stripChars_idem s.toList

/-- Every link returned by `parse_list` is already stripped and non-empty. -/
theorem parseList_mem_strip {linkSelector : String} {d : Doc} {url : String}
    (h : url ∈ parseList linkSelector d) : pyStrip url = url ∧ url ≠ "" := by
  rw [parseList] at h
  simp only [List.mem_filterMap] at h
  obtain ⟨e, he, hf⟩ := h
  cases hsrc : e.getAttr "href" with
  | none => rw [hsrc] at hf; simp at hf
  | some href =>
    rw [hsrc] at hf
    simp only at hf
    by_cases hempty : pyStrip href = ""
    · rw [if_pos hempty] at hf
      simp at hf
    · rw [if_neg hempty] at hf
      simp only [Option.some.injEq] at hf
      subst hf
      exact ⟨pyStrip_idem href, hempty⟩

/-! ### Claim C7 -/

/-- **C7.** In the pipeline, a raw link target extracted from the list page
(already stripped and non-empty, first clause) is used unchanged as the
detail URL iff it case-insensitively starts with `http`, and otherwise is
joined against the list page URL (the `resolveLink` equation); after each
record is created, every field whose name ends in `_url` and holds a
non-empty string value is rewritten in place to `urljoin(base, value)`,
leaving values that `urljoin` fixes (in particular already-absolute ones,
via the abstract `IsAbs`/`habs` hypothesis about the external `urljoin`
collaborator) unchanged and leaving null, empty, and non-`_url` fields
untouched (second clause); the detail loop applies this with base = the
resolved detail URL for each link (third clause, via `perUrl`), and
list-only mode applies it with base = the list page URL (fourth clause). -/
theorem url_normalization_rule (urljoin : String → String → String)
    (IsAbs : String → Prop) (habs : ∀ base u, IsAbs u → urljoin base u = u) :
    (∀ (linkSelector : String) (d : Doc) (listUrl url : String),
       url ∈ parseList linkSelector d →
       pyStrip url = url ∧ url ≠ "" ∧
       resolveLink urljoin listUrl (pyStrip url)
         = if pyStartsWith (pyLower url) "http" = true then url
           else urljoin listUrl url)
  ∧ (∀ (base : String) (r : Record) (i : Nat) (k : String) (v : Option String),
       r[i]? = some (k, v) →
       ((∀ s, pyEndsWith k "_url" = true → v = some s → s ≠ "" →
          (normalizeUrlFields urljoin base r)[i]? = some (k, some (urljoin base s)))
        ∧ (pyEndsWith k "_url" = false →
          (normalizeUrlFields urljoin base r)[i]? = some (k, v))
        ∧ (v = none → (normalizeUrlFields urljoin base r)[i]? = some (k, v))
        ∧ (v = some "" → (normalizeUrlFields urljoin base r)[i]? = some (k, v))
        ∧ (∀ s, v = some s → IsAbs s →
          (normalizeUrlFields urljoin base r)[i]? = some (k, v))))
  ∧ (∀ (fetch : String → Except String String) (parseHtml : String → Doc)
       (selectors : List (String × String)) (listUrl : String) (urls : List String),
       detailLoop fetch parseHtml urljoin selectors listUrl urls []
         = (urls.map (perUrl fetch parseHtml urljoin selectors listUrl)).flatten)
  ∧ (∀ (listUrl : String) (items : List Record),
       listOnlyRecords urljoin listUrl items
         = items.map (fun r =>
             normalizeUrlFields urljoin listUrl
               (recordSet r "source_list_url" (some listUrl)))) := by
  refine ⟨?_, ?_, ?_, ?_⟩
  · intro linkSelector d listUrl url hmem
    obtain ⟨hstrip, hne⟩ := parseList_mem_strip hmem
    refine ⟨hstrip, hne, ?_⟩
    rw [hstrip, resolveLink]
  · intro base r i k v hkv
    refine ⟨?_, ?_, ?_, ?_, ?_⟩
    · intro s hk hv hs
      subst hv
      simp only [normalizeUrlFields, List.getElem?_map, hkv, Option.map_some']
      simp [hk, hs]
    · intro hk
      simp only [normalizeUrlFields, List.getElem?_map, hkv, Option.map_some']
      simp [hk]
    · intro hv
      subst hv
      simp only [normalizeUrlFields, List.getElem?_map, hkv, Option.map_some']
      by_cases hk : pyEndsWith k "_url" <;> simp [hk]
    · intro hv
      subst hv
      simp only [normalizeUrlFields, List.getElem?_map, hkv, Option.map_some']
      by_cases hk : pyEndsWith k "_url" <;> simp [hk]
    · intro s hv hab
      subst hv
      simp only [normalizeUrlFields, List.getElem?_map, hkv, Option.map_some']
      by_cases hk : pyEndsWith k "_url"
      · by_cases hs : s = ""
        · simp [hk, hs]
        · simp [hk, hs, habs base s hab]
      · simp [hk]
  · intro fetch parseHtml selectors listUrl urls
    rw [detailLoop_eq_flatten]
    simp
  · intro listUrl items
    rfl

/-- Witness for C7: the `_url` rewrite clause of `url_normalization_rule`
at a concrete record and a concrete join function. -/
theorem url_normalization_rule_witness :
    (normalizeUrlFields (fun b v => b ++ v) "https://x/"
        [("image_url", some "a.jpg"), ("title", some "t")])[0]?
      = some ("image_url", some "https://x/a.jpg") := by
  have h := ((url_normalization_rule (fun b v => b ++ v) (fun _ => False)
      (fun base u hu => hu.elim)).2.1 "https://x/"
      [("image_url", some "a.jpg"), ("title", some "t")] 0 "image_url" (some "a.jpg")
      (by decide)).1 "a.jpg" (by decide) rfl (by decide)
  rw [h]
  rfl

/-! ### Claim C10 -/

/-- **C10.** For every pipeline run in detail-follow mode: a failure fetching
the list page aborts the run with exit status 1 before any record is
produced (no export attempted); a `FetchError` on an individual detail page
causes only that URL to be skipped — its per-URL contribution is empty and
the loop over the remaining URLs is unaffected (the error never propagates
past the per-item boundary: `detailLoop` is a total function); and if the
final record sequence is empty the run fails with exit status 1 with no
export attempted. -/
theorem pipeline_failure_handling (fetch : String → Except String String)
    (parseHtml : String → Doc) (urljoin : String → String → String)
    (listUrl linkSelector : String) (selectors : List (String × String))
    (limit : Option Nat) :
    (∀ e, fetch listUrl = .error e →
       runPipelineDetail fetch parseHtml urljoin listUrl linkSelector selectors limit
           = .fatalListFetch e
       ∧ exitCode (runPipelineDetail fetch parseHtml urljoin listUrl linkSelector
           selectors limit) = 1
       ∧ exportedRecords (runPipelineDetail fetch parseHtml urljoin listUrl
           linkSelector selectors limit) = none)
  ∧ (∀ url msg, fetch (resolveLink urljoin listUrl (pyStrip url)) = .error msg →
       perUrl fetch parseHtml urljoin selectors listUrl url = []
       ∧ ∀ us1 us2,
           detailLoop fetch parseHtml urljoin selectors listUrl (us1 ++ url :: us2) []
             = detailLoop fetch parseHtml urljoin selectors listUrl (us1 ++ us2) [])
  ∧ (∀ listHtml, fetch listUrl = .ok listHtml →
       detailLoop fetch parseHtml urljoin selectors listUrl
           (match limit with
            | none => parseList linkSelector (parseHtml listHtml)
            | some n => (parseList linkSelector (parseHtml listHtml)).take n) [] = [] →
       runPipelineDetail fetch parseHtml urljoin listUrl linkSelector selectors limit
           = .noRecords
       ∧ exitCode (runPipelineDetail fetch parseHtml urljoin listUrl linkSelector
           selectors limit) = 1
       ∧ exportedRecords (runPipelineDetail fetch parseHtml urljoin listUrl
           linkSelector selectors limit) = none) := by
  refine ⟨?_, ?_, ?_⟩
  · intro e he
    have hrun : runPipelineDetail fetch parseHtml urljoin listUrl linkSelector
        selectors limit = .fatalListFetch e := by
      rw [runPipelineDetail, he]
    exact ⟨hrun, by rw [hrun]; rfl, by rw [hrun]; rfl⟩
  · intro url msg hfail
    have hper : perUrl fetch parseHtml urljoin selectors listUrl url = [] := by
      rw [perUrl]
      by_cases hn : pyStrip url = ""
      · simp [hn]
      · simp only [if_neg hn]
        rw [hfail]
    refine ⟨hper, ?_⟩
    intro us1 us2
    rw [detailLoop_eq_flatten, detailLoop_eq_flatten]
    simp [hper]
  · intro listHtml hok hempty
    have hrun : runPipelineDetail fetch parseHtml urljoin listUrl linkSelector
        selectors limit = .noRecords := by
      rw [runPipelineDetail, hok]
      simp only
      rw [hempty]
      rfl
    exact ⟨hrun, by rw [hrun]; rfl, by rw [hrun]; rfl⟩

/-- A fetch function that always fails. -/
def fetchAllFail : String → Except String String := fun _ => .error "down"

/-- A fetch function for which only the list page `"L"` succeeds. -/
def fetchListOnlyOk : String → Except String String :=
  fun u => if u = "L" then .ok "<html>" else .error "detail down"

/-- Witness for C10: a failing list fetch yields a fatal outcome with exit
status 1, and a failing detail fetch contributes no record while the loop
continues over the remaining URLs. -/
theorem pipeline_failure_handling_witness :
    runPipelineDetail fetchAllFail (fun _ => noMatchDoc) (fun b v => b ++ v)
        "L" "a" [] none = .fatalListFetch "down"
    ∧ exitCode (runPipelineDetail fetchAllFail (fun _ => noMatchDoc) (fun b v => b ++ v)
        "L" "a" [] none) = 1
    ∧ perUrl fetchListOnlyOk (fun _ => noMatchDoc) (fun b v => b ++ v) [] "L" "/p/1"
        = [] := by
  have h1 := (pipeline_failure_handling fetchAllFail (fun _ => noMatchDoc)
      (fun b v => b ++ v) "L" "a" [] none).1 "down" rfl
  have h2 := (pipeline_failure_handling fetchListOnlyOk (fun _ => noMatchDoc)
      (fun b v => b ++ v) "L" "a" [] none).2.1 "/p/1" "detail down" rfl
  exact ⟨h1.1, h1.2.1, h2.1⟩

end ProductScraper
